import Mathlib

/-!
Verification of the connectivity-preserving movement core of the Creative
Foraging game (CreativeForaging_Source.py).

Embedding conventions:
* All coordinates are exact decimals with three places, so we work in
  milli-units: the Python value 0.07 is the integer 70, 0.735 is 735, and so
  on.  Every coordinate the program manipulates is produced by rounding to
  three decimals, hence is exactly representable this way.
* Fallible Python code (ValueError from list.index, StopIteration from
  next(iter(...)), IndexError, the KDTree query on an empty candidate list)
  is modelled with Option: none marks the raised exception; in
  reset_positions the bare except converts the failure into the np.nan
  sentinel, which is likewise modelled by none as the function result.
* The flood fill of is_contiguous loops until its fringe is empty; here it
  runs on explicit fuel.  A fuel of 4 * card(items) + 1 is an upper bound on
  the number of loop iterations (each insertion into the closed set pushes at
  most four neighbours, so at most 1 + 4 * card(items) pops happen), so the
  fuelled version computes the same closed set as the unbounded loop; this is
  borne out by the lemma floodAux_mem below, whose characterisation of the
  result does not mention the fuel.
-/

/-- A grid position in milli-units: (x, y) with x = 1000 * the Python x. -/
abbrev Cell : Type := Int × Int

/-- The x discretization grid of prepare_matrix:
np.around(np.arange(-0.945, 1.015, 0.07), 3), in milli-units. -/
def xgrid : List Int := (List.range 28).map (fun (k : Nat) => -945 + 70 * (k : Int))

/-- The y discretization grid of prepare_matrix:
np.around(np.append(np.arange(-0.7, 0, 0.07), np.arange(0, 0.77, 0.07)), 3),
in milli-units.  The two halves concatenate to -700, -630, ..., 630, 700. -/
def ygrid : List Int :=
  (List.range 10).map (fun (k : Nat) => -700 + 70 * (k : Int)) ++
    (List.range 11).map (fun (k : Nat) => 70 * (k : Int))

/-- grid index lookup of prepare_matrix: (y.tolist().index(i[1]),
x.tolist().index(i[0])).  none models the ValueError raised by list.index
when the coordinate is absent from the grid. -/
def toCellIdx (p : Cell) : Option Cell :=
  match ygrid.findIdx? (fun z => z == p.2), xgrid.findIdx? (fun z => z == p.1) with
  | some r, some c => some ((r : Int), (c : Int))
  | _, _ => none

/-- The value toCellIdx computes on coordinates that are on the grids
(row index first, column index second). -/
def cellIdx (p : Cell) : Cell := ((p.2 + 700) / 70, (p.1 + 945) / 70)

/-- Two cells at distance d apart along exactly one axis.  With d = 70 this
is 4-adjacency of coordinate cells (one 0.07 step); with d = 1 it is
4-adjacency of (row, column) grid indices as used inside is_contiguous. -/
def adjStep (d : Int) (p q : Cell) : Prop :=
  (p.1 = q.1 ∧ (p.2 = q.2 + d ∨ q.2 = p.2 + d)) ∨
    (p.2 = q.2 ∧ (p.1 = q.1 + d ∨ q.1 = p.1 + d))

instance (d : Int) (p q : Cell) : Decidable (adjStep d p q) := by
  unfold adjStep; infer_instance

/-- One edge of the occupied-cells graph: both endpoints occupied and
adjacent at step d. -/
def StepIn (d : Int) (s : Finset Cell) (p q : Cell) : Prop :=
  p ∈ s ∧ q ∈ s ∧ adjStep d p q

/-- Reachability along occupied cells (the transitive closure of StepIn). -/
def Reach (d : Int) (s : Finset Cell) : Cell → Cell → Prop :=
  Relation.ReflTransGen (StepIn d s)

/-- The set s is one connected component: every occupied cell reaches every
other through occupied cells. -/
def ConnectedCells (d : Int) (s : Finset Cell) : Prop :=
  ∀ a ∈ s, ∀ b ∈ s, Reach d s a b

/-- The neighbours map of is_contiguous: for directions
[(0,1),(1,0),(-1,0),(0,-1)], the adjacent cells that are themselves occupied
(generalized over the step d so the same development serves coordinate
space). -/
def nbrs (d : Int) (items : Finset Cell) (c : Cell) : List Cell :=
  ([(c.1, c.2 + d), (c.1 + d, c.2), (c.1 - d, c.2), (c.1, c.2 - d)]).filter
    (fun n => n ∈ items)

/-- The fringe/closed loop of is_contiguous.  The source pops one fringe
element per iteration, skips it when already closed, and otherwise closes it
and pushes its occupied neighbours; the loop runs until the fringe empties.
Here the fringe is consumed from the head rather than the tail, which only
permutes the traversal order of the same closed set, and the iteration count
is bounded by the fuel (see the file comment). -/
def floodAux (d : Int) (items : Finset Cell) :
    Nat → List Cell → Finset Cell → Finset Cell
  | 0, _, closed => closed
  | _ + 1, [], closed => closed
  | fuel + 1, i :: fringe, closed =>
    if i ∈ closed then floodAux d items fuel fringe closed
    else floodAux d items fuel (nbrs d items i ++ fringe) (insert i closed)

/-- is_contiguous(grid), applied to the list of occupied (row, column) index
pairs that the Python code extracts from the grid matrix (items).  none
models the StopIteration raised by next(iter(items)) on an empty set; the
start cell is the first enumerated item, and the result compares the flooded
closed set with the full occupied set. -/
def is_contiguous (items : List Cell) : Option Bool :=
  match items with
  | [] => none
  | i :: _ =>
    some (decide (items.toFinset =
      floodAux 1 items.toFinset (4 * items.toFinset.card + 1) [i] ∅))

/-- prepare_matrix(pos, t): writes each position's x coordinate into the
grid cell found by list.index (ValueError, i.e. none, when a coordinate is
not on the grid), zeroes the cell of pos[t], and runs is_contiguous on the
resulting occupied cells.  A grid cell counts as occupied iff its stored
value (the x coordinate) is nonzero, hence the pi.1.1 ≠ 0 test; x = 0 is
never on xgrid, so the test only mirrors the source's truthiness check. -/
def prepare_matrix (pos : List Cell) (t : Nat) : Option Bool := do
  let idxs ← pos.mapM toCellIdx
  let pt ← pos[t]?
  let tIdx ← toCellIdx pt
  let occ := ((pos.zip idxs).filter
    (fun pi => pi.1.1 ≠ 0 ∧ pi.2 ≠ tIdx)).map (fun pi => pi.2)
  is_contiguous occ

/-- can_move(pos, phase): for each j in range(len(pos)) classify unit j by
prepare_matrix(pos, j); the phase only drives colours, not the flags.  The
result collects the per-unit movable flags; none models a propagated
exception. -/
def can_move (pos : List Cell) : Option (List Bool) :=
  (List.range pos.length).mapM (fun j => prepare_matrix pos j)

/-- allowed_pos(target): neighbours of every unit other than target, in the
source's order x-0.07, x+0.07, y-0.07, y+0.07, deduplicated, minus all
currently occupied positions (existing_pos ranges over every unit, the
target included), then bound-filtered on x and on y.  Units are identified
with their index in pos, as in the source where unit number i sits at
units[i]. -/
def allowed_pos (pos : List Cell) (target : Nat) : List Cell :=
  let cand := ((pos.enum.filter (fun u => u.1 ≠ target)).flatMap (fun u =>
    [(u.2.1 - 70, u.2.2), (u.2.1 + 70, u.2.2),
      (u.2.1, u.2.2 - 70), (u.2.1, u.2.2 + 70)])).dedup
  let cand := cand.filter (fun p => p ∉ pos)
  let cand := cand.filter (fun p => p.1 < 735 ∧ -735 < p.1)
  cand.filter (fun p => p.2 < 490 ∧ -490 < p.2)

/-- snap_to_allowed(allowed, pos): the KDTree query returns the candidate
nearest to pos in Euclidean distance, ties to the earliest candidate;
argmin of the squared distance is the same element.  none models the
failure of building/querying the KDTree on an empty candidate list. -/
def snap_to_allowed (allowed : List Cell) (p : Cell) : Option Cell :=
  allowed.argmin (fun q => (q.1 - p.1) ^ 2 + (q.2 - p.2) ^ 2)

/-- The release branch of the main loop: al_pos = allowed_pos(target);
snap = snap_to_allowed(al_pos, raw drop position); the target's position
becomes snap.  none models the uncaught exception when snapping fails. -/
def release_step (pos : List Cell) (t : Nat) (raw : Cell) : Option (List Cell) :=
  (snap_to_allowed (allowed_pos pos t) raw).map (fun s => pos.set t s)

/-- closest_node(node, nodes): nodes[cdist([node], nodes).argmin()].  The
squared Euclidean distance has the same argmin as the distance itself, and
numpy argmin takes the first minimiser; the centroid is a rational point.
none models the argmin of an empty distance array. -/
def closest_node (node : ℚ × ℚ) (nodes : List Cell) : Option Cell :=
  nodes.argmin (fun q => ((q.1 : ℚ) - node.1) ^ 2 + ((q.2 : ℚ) - node.2) ^ 2)

/-- Lexicographic comparison of [x, y] lists, the order used by
fig_update.sort(). -/
def lexLe (a b : Cell) : Bool :=
  decide (a.1 < b.1 ∨ (a.1 = b.1 ∧ a.2 ≤ b.2))

/-- The centroid of reset_positions: componentwise (max + min) / 2 over the
figure's coordinates, written for a figure with head f and tail fs (the
Python zip(*figure) fails only on an empty figure). -/
def figure_centroid (f : Cell) (fs : List Cell) : ℚ × ℚ :=
  ((((fs.map (fun p => p.1)).foldl max f.1 +
      (fs.map (fun p => p.1)).foldl min f.1 : Int) : ℚ) / 2,
    (((fs.map (fun p => p.2)).foldl max f.2 +
      (fs.map (fun p => p.2)).foldl min f.2 : Int) : ℚ) / 2)

/-- reset_positions(figure): bounding-box centroid, node closest to it,
translate that node to the origin (c_node_dif = -c_node), round (a no-op in
milli-units) and sort lexicographically.  The bare except turns any internal
failure (zip of an empty figure, argmin of an empty array) into the np.nan
sentinel, modelled none. -/
def reset_positions (figure : List Cell) : Option (List Cell) :=
  match figure with
  | [] => none
  | f :: fs =>
    match closest_node (figure_centroid f fs) (f :: fs) with
    | none => none
    | some c =>
      some (((f :: fs).map (fun p => (p.1 - c.1, p.2 - c.2))).mergeSort lexLe)

/-- The slice of a gallery trial record relevant here: the raw figure and
its normalized form; gallery_normalized is np.nan (none) exactly when
reset_positions fell into its except branch. -/
structure GalleryRecord where
  gallery : List Cell
  gallery_normalized : Option (List Cell)

/-- save_to_gallery, restricted to the data it stores: the positions and
pos_norm = reset_positions(positions). -/
def save_to_gallery (positions : List Cell) : GalleryRecord :=
  ⟨positions, reset_positions positions⟩

/-- A coordinate pair on the 0.07 lattice of unit cells: x sits 0.035 off a
0.07 multiple (as all playable x do) and y is a 0.07 multiple. -/
def aligned (p : Cell) : Prop := p.1 % 70 = 35 ∧ p.2 % 70 = 0

/-- Strictly inside the rectangular play area of allowed_pos:
x strictly between -0.735 and 0.735, y strictly between -0.49 and 0.49. -/
def inPlay (p : Cell) : Prop :=
  -735 < p.1 ∧ p.1 < 735 ∧ -490 < p.2 ∧ p.2 < 490

/-- Both coordinates are on the discretization grids of prepare_matrix. -/
def onGrid (p : Cell) : Prop := p.1 ∈ xgrid ∧ p.2 ∈ ygrid

instance (p : Cell) : Decidable (aligned p) := by unfold aligned; infer_instance

instance (p : Cell) : Decidable (inPlay p) := by unfold inPlay; infer_instance

instance (p : Cell) : Decidable (onGrid p) := by unfold onGrid; infer_instance

/-- The initial configuration: ten units in a horizontal row at y = 0,
x from -0.315 to 0.315 in 0.07 steps. -/
def init_pos : List Cell :=
  [(-315, 0), (-245, 0), (-175, 0), (-105, 0), (-35, 0),
    (35, 0), (105, 0), (175, 0), (245, 0), (315, 0)]

/-- The allowed-destination set claimed for a horizontal row by C5: the
cells directly below and above each of the ten units plus both
line-extending end cells. -/
def claimedSetC5 : Finset Cell :=
  ((init_pos.flatMap (fun p => [(p.1, p.2 - 70), (p.1, p.2 + 70)])).toFinset) ∪
    {(-385, 0), (385, 0)}

/-- The allowed-destination set the code actually produces for the initial
row with moving unit t: below/above cells of the nine stationary units only,
and an end-extension cell only when the unit at that end is stationary. -/
def expectedC5 (t : Nat) : Finset Cell :=
  (((init_pos.enum.filter (fun u => u.1 ≠ t)).flatMap
      (fun u => [(u.2.1, u.2.2 - 70), (u.2.1, u.2.2 + 70)])).toFinset) ∪
    (if t = 0 then ∅ else {(-385, 0)}) ∪
    (if t = 9 then ∅ else {(385, 0)})

/-! ## Grid lemmas: the index maps of prepare_matrix -/

theorem mem_xgrid_iff {x : Int} :
    x ∈ xgrid ↔ ∃ k : Nat, k < 28 ∧ x = -945 + 70 * (k : Int) := by
  unfold xgrid
  rw [List.mem_map]
  constructor
  · rintro ⟨k, hk, rfl⟩; exact ⟨k, List.mem_range.mp hk, rfl⟩
  · rintro ⟨k, hk, rfl⟩; exact ⟨k, List.mem_range.mpr hk, rfl⟩

theorem mem_ygrid_iff {y : Int} :
    y ∈ ygrid ↔ ∃ r : Nat, r < 21 ∧ y = -700 + 70 * (r : Int) := by
  unfold ygrid
  rw [List.mem_append, List.mem_map, List.mem_map]
  constructor
  · rintro (⟨k, hk, rfl⟩ | ⟨k, hk, rfl⟩)
    · exact ⟨k, by exact_mod_cast List.mem_range.mp hk |>.trans_le (by omega), rfl⟩
    · have hk' := List.mem_range.mp hk
      refine ⟨k + 10, by omega, ?_⟩
      push_cast; ring
  · rintro ⟨r, hr, rfl⟩
    by_cases h : r < 10
    · exact Or.inl ⟨r, List.mem_range.mpr h, rfl⟩
    · refine Or.inr ⟨r - 10, List.mem_range.mpr (by omega), ?_⟩
      have h10 : ((r - 10 : Nat) : Int) = (r : Int) - 10 := by omega
      rw [h10]; ring

theorem xgrid_findIdx :
    ∀ k : Nat, k < 28 →
      xgrid.findIdx? (fun z => z == -945 + 70 * (k : Int)) = some k := by
  decide

theorem ygrid_findIdx :
    ∀ r : Nat, r < 21 →
      ygrid.findIdx? (fun z => z == -700 + 70 * (r : Int)) = some r := by
  decide

theorem onGrid_param {p : Cell} (h : onGrid p) :
    ∃ k r : Nat, k < 28 ∧ r < 21 ∧
      p.1 = -945 + 70 * (k : Int) ∧ p.2 = -700 + 70 * (r : Int) := by
  obtain ⟨hx, hy⟩ := h
  obtain ⟨k, hk, hxe⟩ := mem_xgrid_iff.mp hx
  obtain ⟨r, hr, hye⟩ := mem_ygrid_iff.mp hy
  exact ⟨k, r, hk, hr, hxe, hye⟩

theorem toCellIdx_onGrid {p : Cell} (h : onGrid p) :
    toCellIdx p = some (cellIdx p) := by
  obtain ⟨k, r, hk, hr, hxe, hye⟩ := onGrid_param h
  unfold toCellIdx
  rw [hxe, hye, xgrid_findIdx k hk, ygrid_findIdx r hr]
  have h1 : cellIdx p = ((r : Int), (k : Int)) := by
    unfold cellIdx
    rw [hxe, hye, Prod.mk.injEq]
    omega
  rw [h1]

theorem onGrid_x_ne_zero {p : Cell} (h : onGrid p) : p.1 ≠ 0 := by
  obtain ⟨k, r, hk, hr, hxe, hye⟩ := onGrid_param h
  omega

theorem cellIdx_injOn {p q : Cell} (hp : onGrid p) (hq : onGrid q)
    (h : cellIdx p = cellIdx q) : p = q := by
  obtain ⟨k, r, hk, hr, hxe, hye⟩ := onGrid_param hp
  obtain ⟨k', r', hk', hr', hxe', hye'⟩ := onGrid_param hq
  unfold cellIdx at h
  rw [Prod.mk.injEq] at h
  rw [Prod.ext_iff]
  obtain ⟨h1, h2⟩ := h
  constructor <;> omega

theorem adjStep_cellIdx {p q : Cell} (hp : onGrid p) (hq : onGrid q) :
    adjStep 70 p q ↔ adjStep 1 (cellIdx p) (cellIdx q) := by
  obtain ⟨k, r, hk, hr, hxe, hye⟩ := onGrid_param hp
  obtain ⟨k', r', hk', hr', hxe', hye'⟩ := onGrid_param hq
  unfold adjStep cellIdx
  dsimp only
  omega

theorem aligned_inPlay_onGrid {p : Cell} (ha : aligned p) (hi : inPlay p) :
    onGrid p := by
  obtain ⟨hx, hy⟩ := ha
  obtain ⟨h1, h2, h3, h4⟩ := hi
  constructor
  · rw [mem_xgrid_iff]
    refine ⟨((p.1 + 945) / 70).toNat, by omega, by omega⟩
  · rw [mem_ygrid_iff]
    refine ⟨((p.2 + 700) / 70).toNat, by omega, by omega⟩

/-! ## Reachability: symmetry, monotonicity, and the neighbours map -/

theorem adjStep_symm {d : Int} {p q : Cell} (h : adjStep d p q) : adjStep d q p := by
  unfold adjStep at h ⊢
  omega

theorem stepIn_symm {d : Int} {s : Finset Cell} : Symmetric (StepIn d s) :=
  fun _ _ h => ⟨h.2.1, h.1, adjStep_symm h.2.2⟩

theorem reach_symm {d : Int} {s : Finset Cell} {a b : Cell}
    (h : Reach d s a b) : Reach d s b a :=
  Relation.ReflTransGen.symmetric stepIn_symm h

theorem reach_mono {d : Int} {s t : Finset Cell} (hst : s ⊆ t) {a b : Cell}
    (h : Reach d s a b) : Reach d t a b :=
  Relation.ReflTransGen.mono (fun _ _ hs => ⟨hst hs.1, hst hs.2.1, hs.2.2⟩) h

theorem mem_nbrs_iff {d : Int} {items : Finset Cell} {c n : Cell} :
    n ∈ nbrs d items c ↔ n ∈ items ∧ adjStep d c n := by
  obtain ⟨c1, c2⟩ := c
  obtain ⟨n1, n2⟩ := n
  unfold nbrs adjStep
  rw [List.mem_filter]
  simp only [List.mem_cons, List.not_mem_nil, or_false, Prod.mk.injEq,
    decide_eq_true_eq]
  constructor
  · rintro ⟨hc, hm⟩
    exact ⟨hm, by omega⟩
  · rintro ⟨hm, hadj⟩
    exact ⟨by omega, hm⟩

/-! ## Correctness of the fuelled flood fill -/

theorem reach_escape {d : Int} {items closed : Finset Cell} {F : List Cell}
    (hinv : ∀ c ∈ closed, ∀ n ∈ nbrs d items c, n ∈ closed ∨ n ∈ F)
    {a b : Cell} (h : Reach d items a b) (ha : a ∈ closed) :
    b ∈ closed ∨ ∃ a2 ∈ F, Reach d items a2 b := by
  induction h with
  | refl => exact Or.inl ha
  | tail h1 h2 ih =>
    obtain ⟨hcm, hbm, hadj⟩ := h2
    rcases ih with hc | ⟨a2, ha2, hr⟩
    · rcases hinv _ hc _ (mem_nbrs_iff.mpr ⟨hbm, hadj⟩) with h3 | h3
      · exact Or.inl h3
      · exact Or.inr ⟨_, h3, Relation.ReflTransGen.refl⟩
    · exact Or.inr ⟨a2, ha2, hr.tail ⟨hcm, hbm, hadj⟩⟩

theorem floodAux_mem {d : Int} {items : Finset Cell} :
    ∀ (fuel : Nat) (fringe : List Cell) (closed : Finset Cell),
      (∀ c ∈ fringe, c ∈ items) →
      (∀ c ∈ closed, ∀ n ∈ nbrs d items c, n ∈ closed ∨ n ∈ fringe) →
      4 * (items \ closed).card + fringe.length ≤ fuel →
      ∀ b, (b ∈ floodAux d items fuel fringe closed ↔
        b ∈ closed ∨ (b ∈ items ∧ ∃ a ∈ fringe, Reach d items a b)) := by
  intro fuel
  induction fuel with
  | zero =>
    intro fringe closed hf hinv hfuel b
    have hlen : fringe.length = 0 := by omega
    rw [List.length_eq_zero] at hlen
    subst hlen
    simp [floodAux]
  | succ n ih =>
    intro fringe closed hf hinv hfuel b
    cases fringe with
    | nil => simp [floodAux]
    | cons i fr =>
      have hi_items : i ∈ items := hf i (List.mem_cons_self i fr)
      rw [List.length_cons] at hfuel
      by_cases hic : i ∈ closed
      · rw [show floodAux d items (n + 1) (i :: fr) closed =
          floodAux d items n fr closed by rw [floodAux, if_pos hic]]
        have hinv' : ∀ c ∈ closed, ∀ m ∈ nbrs d items c, m ∈ closed ∨ m ∈ fr := by
          intro c hc m hm
          rcases hinv c hc m hm with h | h
          · exact Or.inl h
          · rcases List.mem_cons.mp h with rfl | h2
            · exact Or.inl hic
            · exact Or.inr h2
        rw [ih fr closed (fun c hc => hf c (List.mem_cons_of_mem _ hc)) hinv'
          (by omega) b]
        constructor
        · rintro (h | ⟨hbi, a, ha, hr⟩)
          · exact Or.inl h
          · exact Or.inr ⟨hbi, a, List.mem_cons_of_mem _ ha, hr⟩
        · rintro (h | ⟨hbi, a, ha, hr⟩)
          · exact Or.inl h
          · rcases List.mem_cons.mp ha with rfl | ha2
            · rcases reach_escape hinv' hr hic with h1 | ⟨a2, ha2, hr2⟩
              · exact Or.inl h1
              · exact Or.inr ⟨hbi, a2, ha2, hr2⟩
            · exact Or.inr ⟨hbi, a, ha2, hr⟩
      · rw [show floodAux d items (n + 1) (i :: fr) closed =
          floodAux d items n (nbrs d items i ++ fr) (insert i closed) by
            rw [floodAux, if_neg hic]]
        have hf' : ∀ c ∈ nbrs d items i ++ fr, c ∈ items := by
          intro c hc
          rcases List.mem_append.mp hc with h | h
          · exact (mem_nbrs_iff.mp h).1
          · exact hf c (List.mem_cons_of_mem _ h)
        have hinv' : ∀ c ∈ insert i closed, ∀ m ∈ nbrs d items c,
            m ∈ insert i closed ∨ m ∈ nbrs d items i ++ fr := by
          intro c hc m hm
          rcases Finset.mem_insert.mp hc with rfl | hc2
          · exact Or.inr (List.mem_append.mpr (Or.inl hm))
          · rcases hinv c hc2 m hm with h | h
            · exact Or.inl (Finset.mem_insert_of_mem h)
            · rcases List.mem_cons.mp h with rfl | h2
              · exact Or.inl (Finset.mem_insert_self m closed)
              · exact Or.inr (List.mem_append.mpr (Or.inr h2))
        have hcard : (items \ insert i closed).card + 1 = (items \ closed).card := by
          have hmem : i ∈ items \ closed := Finset.mem_sdiff.mpr ⟨hi_items, hic⟩
          rw [Finset.sdiff_insert, Finset.card_erase_of_mem hmem]
          have : 0 < (items \ closed).card := Finset.card_pos.mpr ⟨i, hmem⟩
          omega
        have hnl : (nbrs d items i).length ≤ 4 := by
          unfold nbrs
          exact le_trans (List.length_filter_le _ _) (by simp)
        have hfuel' : 4 * (items \ insert i closed).card +
            (nbrs d items i ++ fr).length ≤ n := by
          rw [List.length_append]
          omega
        rw [ih _ _ hf' hinv' hfuel' b]
        constructor
        · rintro (h | ⟨hbi, a, ha, hr⟩)
          · rcases Finset.mem_insert.mp h with heq | h2
            · refine Or.inr ⟨?_, i, List.mem_cons_self i fr, ?_⟩
              · rw [heq]
                exact hi_items
              · rw [heq]
                exact Relation.ReflTransGen.refl
            · exact Or.inl h2
          · rcases List.mem_append.mp ha with han | haf
            · have hstep : StepIn d items i a :=
                ⟨hi_items, (mem_nbrs_iff.mp han).1, (mem_nbrs_iff.mp han).2⟩
              exact Or.inr ⟨hbi, i, List.mem_cons_self i fr,
                Relation.ReflTransGen.head hstep hr⟩
            · exact Or.inr ⟨hbi, a, List.mem_cons_of_mem _ haf, hr⟩
        · rintro (h | ⟨hbi, a, ha, hr⟩)
          · exact Or.inl (Finset.mem_insert_of_mem h)
          · rcases List.mem_cons.mp ha with rfl | haf
            · rcases Relation.ReflTransGen.cases_head hr with heq | ⟨m, hstep, hr2⟩
              · exact Or.inl (heq ▸ Finset.mem_insert_self a closed)
              · obtain ⟨_, hm_items, hadj⟩ := hstep
                exact Or.inr ⟨hbi, m,
                  List.mem_append.mpr (Or.inl (mem_nbrs_iff.mpr ⟨hm_items, hadj⟩)), hr2⟩
            · exact Or.inr ⟨hbi, a, List.mem_append.mpr (Or.inr haf), hr⟩

theorem flood_from_start {d : Int} {S : Finset Cell} {i : Cell} (hi : i ∈ S) :
    ∀ b, b ∈ floodAux d S (4 * S.card + 1) [i] ∅ ↔ b ∈ S ∧ Reach d S i b := by
  intro b
  have hf : ∀ c ∈ [i], c ∈ S := by
    intro c hc
    rw [List.mem_singleton] at hc
    rw [hc]
    exact hi
  have hinv : ∀ c ∈ (∅ : Finset Cell), ∀ n ∈ nbrs d S c,
      n ∈ (∅ : Finset Cell) ∨ n ∈ [i] := by
    intro c hc
    exact absurd hc (Finset.not_mem_empty c)
  have hfuel : 4 * (S \ ∅).card + ([i] : List Cell).length ≤ 4 * S.card + 1 := by
    rw [Finset.sdiff_empty]
    simp
  rw [floodAux_mem (4 * S.card + 1) [i] ∅ hf hinv hfuel b]
  simp only [Finset.not_mem_empty, false_or, List.mem_cons, List.not_mem_nil,
    or_false]
  constructor
  · rintro ⟨hb, a, rfl, hr⟩
    exact ⟨hb, hr⟩
  · rintro ⟨hb, hr⟩
    exact ⟨hb, i, rfl, hr⟩

theorem connected_iff_reach_head {d : Int} {s : Finset Cell} {a0 : Cell}
    (ha0 : a0 ∈ s) :
    ConnectedCells d s ↔ ∀ b ∈ s, Reach d s a0 b := by
  constructor
  · intro h b hb
    exact h a0 ha0 b hb
  · intro h a ha b hb
    exact Relation.ReflTransGen.trans (reach_symm (h a ha)) (h b hb)

theorem is_contiguous_spec {items : List Cell} (hne : items ≠ []) :
    ∃ b, is_contiguous items = some b ∧
      (b = true ↔ ConnectedCells 1 items.toFinset) := by
  cases items with
  | nil => exact absurd rfl hne
  | cons i rest =>
    refine ⟨_, rfl, ?_⟩
    rw [decide_eq_true_iff]
    have hiS : i ∈ (i :: rest).toFinset := by simp
    have hflood := flood_from_start (d := 1) hiS
    constructor
    · intro he
      rw [connected_iff_reach_head hiS]
      intro b hb
      rw [he] at hb
      exact ((hflood b).mp hb).2
    · intro hc
      apply Finset.ext
      intro b
      rw [hflood b]
      constructor
      · intro hb
        exact ⟨hb, (connected_iff_reach_head hiS).mp hc b hb⟩
      · intro hb
        exact hb.1

theorem connected_of_flood {d : Int} (i : Cell) (rest : List Cell)
    (h : (i :: rest).toFinset ⊆
      floodAux d (i :: rest).toFinset (4 * (i :: rest).toFinset.card + 1) [i] ∅) :
    ConnectedCells d (i :: rest).toFinset := by
  have hiS : i ∈ (i :: rest).toFinset := by simp
  rw [connected_iff_reach_head hiS]
  intro b hb
  exact ((flood_from_start hiS b).mp (h hb)).2

/-! ## Transport of connectivity along the coordinate-to-index map -/

theorem reach_image_of {d e : Int} {s : Finset Cell} {f : Cell → Cell}
    (hadj : ∀ p ∈ s, ∀ q ∈ s, adjStep d p q → adjStep e (f p) (f q))
    {a b : Cell} (h : Reach d s a b) :
    Reach e (s.image f) (f a) (f b) := by
  induction h with
  | refl => exact Relation.ReflTransGen.refl
  | tail h1 h2 ih =>
    obtain ⟨hc, hb, hcb⟩ := h2
    exact ih.tail ⟨Finset.mem_image_of_mem f hc, Finset.mem_image_of_mem f hb,
      hadj _ hc _ hb hcb⟩

theorem reach_image_rev {d e : Int} {s : Finset Cell} {f : Cell → Cell}
    (hinj : ∀ p ∈ s, ∀ q ∈ s, f p = f q → p = q)
    (hadj : ∀ p ∈ s, ∀ q ∈ s, adjStep e (f p) (f q) → adjStep d p q)
    {a : Cell} (ha : a ∈ s) :
    ∀ z, Reach e (s.image f) (f a) z → ∃ m ∈ s, z = f m ∧ Reach d s a m := by
  intro z hz
  induction hz with
  | refl => exact ⟨a, ha, rfl, Relation.ReflTransGen.refl⟩
  | tail h1 h2 ih =>
    obtain ⟨m, hm, heq, hr⟩ := ih
    obtain ⟨hy, hz2, hadj2⟩ := h2
    obtain ⟨m2, hm2, heq2⟩ := Finset.mem_image.mp hz2
    refine ⟨m2, hm2, heq2.symm, hr.tail ⟨hm, hm2, ?_⟩⟩
    apply hadj _ hm _ hm2
    rw [← heq, heq2]
    exact hadj2

theorem conn_image_iff {d e : Int} {s : Finset Cell} {f : Cell → Cell}
    (hinj : ∀ p ∈ s, ∀ q ∈ s, f p = f q → p = q)
    (hadj : ∀ p ∈ s, ∀ q ∈ s, (adjStep d p q ↔ adjStep e (f p) (f q))) :
    ConnectedCells e (s.image f) ↔ ConnectedCells d s := by
  constructor
  · intro h a ha b hb
    have h2 := h (f a) (Finset.mem_image_of_mem f ha) (f b)
      (Finset.mem_image_of_mem f hb)
    obtain ⟨m, hm, heq, hr⟩ :=
      reach_image_rev hinj (fun p hp q hq => (hadj p hp q hq).mpr) ha (f b) h2
    have hbm : b = m := hinj b hb m hm heq
    rw [hbm]
    exact hr
  · intro h x hx y hy
    obtain ⟨a, ha, rfl⟩ := Finset.mem_image.mp hx
    obtain ⟨b, hb, rfl⟩ := Finset.mem_image.mp hy
    exact reach_image_of (fun p hp q hq => (hadj p hp q hq).mp) (h a ha b hb)

/-! ## Connectivity is preserved by inserting an adjacent cell -/

theorem connected_insert {d : Int} {s : Finset Cell} {w x : Cell}
    (hc : ConnectedCells d s) (hw : w ∈ s) (hadj : adjStep d w x) :
    ConnectedCells d (insert x s) := by
  have hsub : s ⊆ insert x s := Finset.subset_insert x s
  have hxw : Reach d (insert x s) x w :=
    Relation.ReflTransGen.single
      ⟨Finset.mem_insert_self x s, hsub hw, adjStep_symm hadj⟩
  have hx_to : ∀ b ∈ s, Reach d (insert x s) x b := by
    intro b hb
    exact Relation.ReflTransGen.trans hxw (reach_mono hsub (hc w hw b hb))
  intro a ha b hb
  rcases Finset.mem_insert.mp ha with rfl | ha2
  · rcases Finset.mem_insert.mp hb with rfl | hb2
    · exact Relation.ReflTransGen.refl
    · exact hx_to b hb2
  · rcases Finset.mem_insert.mp hb with rfl | hb2
    · exact reach_symm (hx_to a ha2)
    · exact reach_mono hsub (hc a ha2 b hb2)

/-! ## From prepare_matrix to coordinate-space connectivity -/

theorem mapM_eq_map_of {α β : Type} (f : α → Option β) (g : α → β) :
    ∀ l : List α, (∀ a ∈ l, f a = some (g a)) → l.mapM f = some (l.map g) := by
  intro l
  induction l with
  | nil => intro _; rfl
  | cons a l ih =>
    intro h
    rw [List.map_cons, List.mapM_cons, h a (List.mem_cons_self a l),
      ih (fun x hx => h x (List.mem_cons_of_mem _ hx))]
    rfl

theorem list_toFinset_map {α β : Type} [DecidableEq α] [DecidableEq β]
    (f : α → β) (l : List α) : (l.map f).toFinset = l.toFinset.image f := by
  ext b
  simp only [List.mem_toFinset, List.mem_map, Finset.mem_image]

theorem prepare_matrix_spec {pos : List Cell} {j : Nat}
    (hg : ∀ p ∈ pos, onGrid p) (hj : j < pos.length)
    (hne : ∃ p ∈ pos, p ≠ pos.get ⟨j, hj⟩) :
    ∃ b, prepare_matrix pos j = some b ∧
      (b = true ↔
        ConnectedCells 70 (pos.toFinset.erase (pos.get ⟨j, hj⟩))) := by
  have hmm : pos.mapM toCellIdx = some (pos.map cellIdx) :=
    mapM_eq_map_of _ _ pos (fun p hp => toCellIdx_onGrid (hg p hp))
  have hpt_mem : pos.get ⟨j, hj⟩ ∈ pos := List.get_mem pos j hj
  have hptg : onGrid (pos.get ⟨j, hj⟩) := hg _ hpt_mem
  have hget : pos[j]? = some (pos.get ⟨j, hj⟩) := by
    rw [List.getElem?_eq_getElem hj]
    rfl
  have hpm : prepare_matrix pos j = is_contiguous
      ((pos.filter (fun p => p ≠ pos.get ⟨j, hj⟩)).map cellIdx) := by
    unfold prepare_matrix
    rw [hmm]
    simp only [Option.bind_eq_bind, Option.some_bind]
    rw [hget]
    simp only [Option.some_bind]
    rw [toCellIdx_onGrid hptg]
    simp only [Option.some_bind]
    have hzip : pos.zip (pos.map cellIdx) =
        pos.map (fun p => (p, cellIdx p)) := by
      have h1 := List.zip_map' id cellIdx pos
      rw [List.map_id] at h1
      exact h1
    rw [hzip, List.filter_map, List.map_map]
    have hfc : pos.filter
        ((fun pi : Cell × Cell => decide (pi.1.1 ≠ 0 ∧ pi.2 ≠ cellIdx (pos.get ⟨j, hj⟩))) ∘
          (fun p => (p, cellIdx p))) =
        pos.filter (fun p => p ≠ pos.get ⟨j, hj⟩) := by
      apply List.filter_congr
      intro p hp
      have hpg := hg p hp
      simp only [Function.comp_apply]
      rw [decide_eq_decide]
      constructor
      · rintro ⟨h0, hne2⟩ heq2
        exact hne2 (by rw [heq2])
      · intro hne2
        exact ⟨onGrid_x_ne_zero hpg,
          fun heq2 => hne2 (cellIdx_injOn hpg hptg heq2)⟩
    rw [hfc]
    have hcomp : ((fun pi : Cell × Cell => pi.2) ∘ (fun p : Cell => (p, cellIdx p))) =
        cellIdx := rfl
    rw [hcomp]
  obtain ⟨p0, hp0, hp0ne⟩ := hne
  have hp0f : p0 ∈ pos.filter (fun p => p ≠ pos.get ⟨j, hj⟩) := by
    rw [List.mem_filter]
    exact ⟨hp0, by rw [decide_eq_true_eq]; exact hp0ne⟩
  have hocc_ne : (pos.filter (fun p => p ≠ pos.get ⟨j, hj⟩)).map cellIdx ≠ [] :=
    List.ne_nil_of_mem (List.mem_map_of_mem cellIdx hp0f)
  obtain ⟨b, hbval, hbiff⟩ := is_contiguous_spec hocc_ne
  refine ⟨b, by rw [hpm]; exact hbval, ?_⟩
  rw [hbiff]
  have hsets : ((pos.filter (fun p => p ≠ pos.get ⟨j, hj⟩)).map cellIdx).toFinset =
      (pos.toFinset.erase (pos.get ⟨j, hj⟩)).image cellIdx := by
    rw [list_toFinset_map, List.toFinset_filter]
    congr 1
    have h1 : Finset.filter
        (fun x => decide (x ≠ pos.get ⟨j, hj⟩) = true) pos.toFinset =
        Finset.filter (fun x => x ≠ pos.get ⟨j, hj⟩) pos.toFinset := by
      apply Finset.filter_congr
      intro x _
      rw [decide_eq_true_eq]
    rw [h1, Finset.filter_ne']
  rw [hsets]
  apply conn_image_iff
  · intro p hp q hq
    exact cellIdx_injOn (hg p (List.mem_toFinset.mp (Finset.mem_of_mem_erase hp)))
      (hg q (List.mem_toFinset.mp (Finset.mem_of_mem_erase hq)))
  · intro p hp q hq
    exact adjStep_cellIdx (hg p (List.mem_toFinset.mp (Finset.mem_of_mem_erase hp)))
      (hg q (List.mem_toFinset.mp (Finset.mem_of_mem_erase hq)))

theorem can_move_spec {pos : List Cell}
    (hg : ∀ p ∈ pos, onGrid p)
    (hne : ∀ j : Nat, ∀ hj : j < pos.length, ∃ p ∈ pos, p ≠ pos.get ⟨j, hj⟩) :
    ∃ bs, can_move pos = some bs ∧ bs.length = pos.length ∧
      ∀ j : Nat, ∀ hj : j < pos.length,
        (bs.getD j false = true ↔
          ConnectedCells 70 (pos.toFinset.erase (pos.get ⟨j, hj⟩))) := by
  have hall : ∀ j ∈ List.range pos.length,
      prepare_matrix pos j = some ((prepare_matrix pos j).iget) := by
    intro j hjr
    have hj := List.mem_range.mp hjr
    obtain ⟨b, hb, _⟩ := prepare_matrix_spec hg hj (hne j hj)
    rw [hb]
  have hcm : can_move pos =
      some ((List.range pos.length).map (fun j => (prepare_matrix pos j).iget)) := by
    unfold can_move
    exact mapM_eq_map_of _ _ _ hall
  refine ⟨_, hcm, by simp, ?_⟩
  intro j hj
  obtain ⟨b, hb, hiff⟩ := prepare_matrix_spec hg hj (hne j hj)
  have hlen2 : j < ((List.range pos.length).map
      (fun j => (prepare_matrix pos j).iget)).length := by
    simp [hj]
  have hbs : ((List.range pos.length).map
      (fun j => (prepare_matrix pos j).iget)).getD j false =
      (prepare_matrix pos j).iget := by
    rw [List.getD_eq_getElem _ _ hlen2, List.getElem_map, List.getElem_range]
  rw [hbs, hb]
  exact hiff

/-- C1: for every configuration of ten grid-aligned unit cells strictly
inside the play area (all distinct) and every unit index j below 10, the
movability classifier can_move succeeds and marks unit j movable exactly
when the nine cells left after removing unit j's cell form one 4-connected
component (cells one 0.07 step apart), the fewer-than-2-cells escape being
vacuous at this size. -/
theorem C1_movable_iff_removal_connected (pos : List Cell)
    (h10 : pos.length = 10) (ha : ∀ p ∈ pos, aligned p ∧ inPlay p)
    (hnd : pos.Nodup) (j : Nat) (hj : j < 10) :
    ∃ bs, can_move pos = some bs ∧ bs.length = 10 ∧
      (bs.getD j false = true ↔
        (ConnectedCells 70 (pos.toFinset.erase (pos.get ⟨j, by omega⟩)) ∨
          (pos.toFinset.erase (pos.get ⟨j, by omega⟩)).card < 2)) := by
  have hg : ∀ p ∈ pos, onGrid p := fun p hp =>
    aligned_inPlay_onGrid (ha p hp).1 (ha p hp).2
  have hj' : j < pos.length := by omega
  have hne : ∀ k : Nat, ∀ hk : k < pos.length, ∃ p ∈ pos, p ≠ pos.get ⟨k, hk⟩ := by
    intro k hk
    by_cases hk0 : k = 0
    · refine ⟨pos.get ⟨1, by omega⟩, List.get_mem pos 1 (by omega), ?_⟩
      intro hcon
      have h3 := List.nodup_iff_injective_get.mp hnd hcon
      have h4 : (1 : Nat) = k := congrArg Fin.val h3
      omega
    · refine ⟨pos.get ⟨0, by omega⟩, List.get_mem pos 0 (by omega), ?_⟩
      intro hcon
      have h3 := List.nodup_iff_injective_get.mp hnd hcon
      have h4 : (0 : Nat) = k := congrArg Fin.val h3
      omega
  obtain ⟨bs, hcm, hlen, hiff⟩ := can_move_spec hg hne
  refine ⟨bs, hcm, by omega, ?_⟩
  rw [hiff j hj']
  have hcard : (pos.toFinset.erase (pos.get ⟨j, hj'⟩)).card = 9 := by
    rw [Finset.card_erase_of_mem (List.mem_toFinset.mpr (List.get_mem pos j hj')),
      List.toFinset_card_of_nodup hnd, h10]
  constructor
  · intro h
    exact Or.inl h
  · rintro (h | h)
    · exact h
    · rw [hcard] at h
      exact absurd h (by norm_num)

/-- Witness for C1: the initial row of ten units, unit 0. -/
theorem C1_witness :
    (init_pos.length = 10 ∧ (∀ p ∈ init_pos, aligned p ∧ inPlay p) ∧
      init_pos.Nodup ∧ 0 < 10) ∧
    (∃ bs, can_move init_pos = some bs ∧ bs.length = 10 ∧
      (bs.getD 0 false = true ↔
        (ConnectedCells 70 (init_pos.toFinset.erase (init_pos.get ⟨0, by decide⟩)) ∨
          (init_pos.toFinset.erase (init_pos.get ⟨0, by decide⟩)).card < 2))) :=
  ⟨⟨rfl, by decide, by decide, by decide⟩,
    C1_movable_iff_removal_connected init_pos rfl (by decide) (by decide) 0 (by decide)⟩

/-- C6 counterexample: on the empty occupied set the connectivity validator
does not return a value at all; next(iter(items)) raises StopIteration,
modelled by none, instead of reporting the set as trivially connected. -/
theorem C6_counterexample : is_contiguous [] = none := rfl

/-- C6 amended: the connectivity validator returns true on any single
occupied cell, but on an empty occupied set it fails (the flood-fill start
selection has no element to draw) rather than returning true. -/
theorem C6_empty_fails_singleton_true :
    is_contiguous [] = none ∧ ∀ c : Cell, is_contiguous [c] = some true := by
  refine ⟨rfl, ?_⟩
  intro c
  obtain ⟨b, hb, hiff⟩ := is_contiguous_spec (show ([c] : List Cell) ≠ [] by simp)
  rw [hb]
  have hconn : ConnectedCells 1 ([c].toFinset) := by
    intro a ha b2 hb2
    simp only [List.toFinset_cons, List.toFinset_nil, insert_emptyc_eq,
      Finset.mem_singleton] at ha hb2
    rw [ha, hb2]
    exact Relation.ReflTransGen.refl
  rw [hiff.mpr hconn]

/-- C7 counterexample: the classifier is not total on every list of unit
positions: a position off the discretization grid (x = 0 is not an xgrid
value) makes list.index raise, and a single on-grid unit leaves the
validator with an empty occupied set, which also raises. -/
theorem C7_counterexample :
    can_move [((0 : Int), (0 : Int))] = none ∧
      can_move [((-315 : Int), (0 : Int))] = none := by
  constructor <;> rfl

/-- C7 amended: the classifier is total (returns one movable flag per unit,
raising nothing) on any configuration whose coordinates all lie on the
discretization grids and that occupies at least two distinct cells; it can
raise on off-grid coordinates and on configurations whose removal step
empties the occupied set. -/
theorem C7_total_on_grid (pos : List Cell)
    (hg : ∀ p ∈ pos, onGrid p) (h2 : 2 ≤ pos.toFinset.card) :
    ∃ bs, can_move pos = some bs ∧ bs.length = pos.length := by
  have hne : ∀ j : Nat, ∀ hj : j < pos.length, ∃ p ∈ pos, p ≠ pos.get ⟨j, hj⟩ := by
    intro j hj
    obtain ⟨q, hq, hqne⟩ :=
      Finset.exists_ne_of_one_lt_card (s := pos.toFinset) (by omega)
        (pos.get ⟨j, hj⟩)
    exact ⟨q, List.mem_toFinset.mp hq, hqne⟩
  obtain ⟨bs, hcm, hlen, _⟩ := can_move_spec hg hne
  exact ⟨bs, hcm, hlen⟩

/-- Witness for C7 (amended): the initial row is on-grid with ten distinct
cells, so the classifier returns a full list of flags on it. -/
theorem C7_witness :
    ((∀ p ∈ init_pos, onGrid p) ∧ 2 ≤ init_pos.toFinset.card) ∧
      (∃ bs, can_move init_pos = some bs ∧ bs.length = init_pos.length) :=
  ⟨⟨by decide, by decide⟩, C7_total_on_grid init_pos (by decide) (by decide)⟩

/-! ## The allowed-destination generator -/

theorem mem_cand4_iff {p q : Cell} :
    q ∈ [((p.1 - 70 : Int), p.2), (p.1 + 70, p.2),
      (p.1, p.2 - 70), (p.1, p.2 + 70)] ↔ adjStep 70 p q := by
  obtain ⟨p1, p2⟩ := p
  obtain ⟨q1, q2⟩ := q
  unfold adjStep
  simp only [List.mem_cons, List.not_mem_nil, or_false, Prod.mk.injEq]
  omega

theorem mem_allowed_pos {pos : List Cell} {t : Nat} {q : Cell} :
    q ∈ allowed_pos pos t ↔
      ((∃ k : Nat, ∃ hk : k < pos.length, k ≠ t ∧
          adjStep 70 (pos.get ⟨k, hk⟩) q) ∧
        q ∉ pos ∧ inPlay q) := by
  unfold allowed_pos
  simp only [List.mem_filter, List.mem_dedup, List.mem_flatMap,
    decide_eq_true_eq]
  constructor
  · rintro ⟨⟨⟨⟨⟨k0, u2⟩, hu, hq⟩, hnotin⟩, hx⟩, hy⟩
    obtain ⟨hu_enum, hu_ne⟩ := hu
    obtain ⟨hlt, hval⟩ := List.mem_enum hu_enum
    refine ⟨⟨k0, hlt, hu_ne, ?_⟩, hnotin, ⟨hx.2, hx.1, hy.2, hy.1⟩⟩
    have h6 := mem_cand4_iff.mp hq
    rw [hval] at h6
    exact h6
  · rintro ⟨⟨k, hk, hkt, hadj⟩, hnotin, hip⟩
    obtain ⟨h1, h2, h3, h4⟩ := hip
    refine ⟨⟨⟨⟨(k, pos.get ⟨k, hk⟩), ⟨?_, hkt⟩, mem_cand4_iff.mpr hadj⟩, hnotin⟩,
      ⟨h2, h1⟩⟩, ⟨h4, h3⟩⟩
    rw [List.mem_iff_getElem]
    refine ⟨k, by rw [List.enum_length]; exact hk, ?_⟩
    rw [List.getElem_enum]
    rfl

/-- C3 counterexample: in the initial row with unit 0 moving, the vacated
cell (-0.315, 0) is 4-adjacent to the stationary unit at (-0.245, 0) and
strictly in bounds, yet it is not in the allowed set: existing_pos includes
the mover's own entry, so its vacated cell is excluded. -/
theorem C3_counterexample :
    ((-245 : Int), (0 : Int)) ∈ init_pos ∧
      adjStep 70 ((-245 : Int), (0 : Int)) ((-315 : Int), (0 : Int)) ∧
      inPlay ((-315 : Int), (0 : Int)) ∧
      ((-315 : Int), (0 : Int)) ∉ allowed_pos init_pos 0 := by
  decide

/-- C3 amended: the generator excludes every currently occupied cell, the
moving unit's own (pre-drag, to-be-vacated) cell included: no cell of the
configuration is ever an allowed destination. -/
theorem C3_occupied_always_excluded (pos : List Cell) (t : Nat) (p : Cell)
    (hp : p ∈ pos) : p ∉ allowed_pos pos t := by
  intro hmem
  exact (mem_allowed_pos.mp hmem).2.1 hp

/-- Witness for C3 (amended): the mover's own cell in the initial row is
not an allowed destination. -/
theorem C3_witness :
    ((-315 : Int), (0 : Int)) ∈ init_pos ∧
      ((-315 : Int), (0 : Int)) ∉ allowed_pos init_pos 0 :=
  ⟨by decide, C3_occupied_always_excluded init_pos 0 _ (by decide)⟩

/-- C4: every cell the allowed-destination generator returns is unoccupied
and strictly inside the play area: x strictly between -0.735 and 0.735 and
y strictly between -0.49 and 0.49. -/
theorem C4_allowed_unoccupied_in_bounds (pos : List Cell) (t : Nat) (q : Cell)
    (hq : q ∈ allowed_pos pos t) :
    q ∉ pos ∧ -735 < q.1 ∧ q.1 < 735 ∧ -490 < q.2 ∧ q.2 < 490 := by
  obtain ⟨_, hnotin, h1, h2, h3, h4⟩ := mem_allowed_pos.mp hq
  exact ⟨hnotin, h1, h2, h3, h4⟩

/-- Witness for C4: the left extension cell for mover 5 in the initial
row. -/
theorem C4_witness :
    ((-385 : Int), (0 : Int)) ∈ allowed_pos init_pos 5 ∧
      (((-385 : Int), (0 : Int)) ∉ init_pos ∧
        -735 < (-385 : Int) ∧ (-385 : Int) < 735 ∧
        -490 < (0 : Int) ∧ (0 : Int) < 490) :=
  ⟨by decide, C4_allowed_unoccupied_in_bounds init_pos 5 _ (by decide)⟩

/-- C5 counterexample: for the initial row with unit 0 moving, the allowed
set differs from the claimed one (above/below every unit plus both end
extensions): the cells around the mover itself are missing. -/
theorem C5_counterexample :
    (allowed_pos init_pos 0).toFinset ≠ claimedSetC5 := by
  decide

/-- C5 amended: for the initial horizontal row and any moving unit t, the
allowed set equals exactly the cells directly below and above each of the
nine stationary units, plus an end-extension cell for each end whose unit is
stationary (the extension next to the moving end unit is absent, as are the
cells above and below the mover). -/
theorem C5_row_allowed_set (t : Nat) (ht : t < 10) :
    (allowed_pos init_pos t).toFinset = expectedC5 t := by
  have h : ∀ u : Nat, u < 10 →
      (allowed_pos init_pos u).toFinset = expectedC5 u := by decide
  exact h t ht

/-- Witness for C5 (amended): the interior mover 3. -/
theorem C5_witness :
    3 < 10 ∧ (allowed_pos init_pos 3).toFinset = expectedC5 3 :=
  ⟨by decide, C5_row_allowed_set 3 (by decide)⟩

/-! ## The move invariant -/

theorem mem_set_iff {l : List Cell} {j : Nat} {d a : Cell}
    (hj : j < l.length) (hnd : l.Nodup) :
    a ∈ l.set j d ↔ a = d ∨ (a ∈ l ∧ a ≠ l.get ⟨j, hj⟩) := by
  rw [List.mem_iff_getElem]
  constructor
  · rintro ⟨k, hk, hval⟩
    have hk2 : k < l.length := by
      rw [List.length_set] at hk
      exact hk
    rw [List.getElem_set hk] at hval
    by_cases hkj : j = k
    · rw [if_pos hkj] at hval
      exact Or.inl hval.symm
    · rw [if_neg hkj] at hval
      refine Or.inr ⟨hval ▸ List.getElem_mem hk2, ?_⟩
      intro heq
      apply hkj
      have h3 : l.get ⟨k, hk2⟩ = l.get ⟨j, hj⟩ := by
        rw [← heq, ← hval]
        exact List.get_eq_getElem l ⟨k, hk2⟩
      have h4 := congrArg Fin.val (List.nodup_iff_injective_get.mp hnd h3)
      exact h4.symm
  · rintro (rfl | ⟨hmem, hne⟩)
    · refine ⟨j, by rw [List.length_set]; exact hj, ?_⟩
      rw [List.getElem_set, if_pos rfl]
    · obtain ⟨k, hk, hval⟩ := List.mem_iff_getElem.mp hmem
      have hkj : j ≠ k := by
        intro heq
        subst heq
        exact hne (by rw [← hval]; exact (List.get_eq_getElem l ⟨j, hj⟩).symm)
      refine ⟨k, by rw [List.length_set]; exact hk, ?_⟩
      rw [List.getElem_set, if_neg hkj]
      exact hval

theorem toFinset_set_eq {l : List Cell} {j : Nat} {d : Cell}
    (hj : j < l.length) (hnd : l.Nodup) :
    (l.set j d).toFinset = insert d (l.toFinset.erase (l.get ⟨j, hj⟩)) := by
  ext a
  rw [List.mem_toFinset, mem_set_iff hj hnd, Finset.mem_insert,
    Finset.mem_erase, List.mem_toFinset]
  tauto

/-- C2: starting from a configuration of ten distinct, aligned, in-play
cells forming one 4-connected component, relocating any unit the classifier
marks movable to any cell returned by the allowed-destination generator (in
particular the one the snap resolver selects, which is such a cell) again
yields ten cells with no duplicates forming one 4-connected component. -/
theorem C2_move_preserves_invariant (pos : List Cell)
    (h10 : pos.length = 10) (ha : ∀ p ∈ pos, aligned p ∧ inPlay p)
    (hnd : pos.Nodup) (hconn : ConnectedCells 70 pos.toFinset)
    (j : Nat) (hj : j < 10)
    (hmv : prepare_matrix pos j = some true)
    (d : Cell) (hd : d ∈ allowed_pos pos j) :
    (pos.set j d).Nodup ∧ ConnectedCells 70 (pos.set j d).toFinset := by
  have hj' : j < pos.length := by omega
  have hg : ∀ p ∈ pos, onGrid p := fun p hp =>
    aligned_inPlay_onGrid (ha p hp).1 (ha p hp).2
  obtain ⟨⟨k, hk, hkj, hadj⟩, hdnot, hdip⟩ := mem_allowed_pos.mp hd
  have hget_ne : pos.get ⟨k, hk⟩ ≠ pos.get ⟨j, hj'⟩ := by
    intro heq
    exact hkj (congrArg Fin.val (List.nodup_iff_injective_get.mp hnd heq))
  have hw_mem : pos.get ⟨k, hk⟩ ∈ pos.toFinset.erase (pos.get ⟨j, hj'⟩) :=
    Finset.mem_erase.mpr ⟨hget_ne, List.mem_toFinset.mpr (List.get_mem pos k hk)⟩
  have hne : ∃ p ∈ pos, p ≠ pos.get ⟨j, hj'⟩ :=
    ⟨pos.get ⟨k, hk⟩, List.get_mem pos k hk, hget_ne⟩
  obtain ⟨b, hb, hiff⟩ := prepare_matrix_spec hg hj' hne
  have hbtrue : b = true := Option.some.inj (hb.symm.trans hmv)
  have hconnR : ConnectedCells 70 (pos.toFinset.erase (pos.get ⟨j, hj'⟩)) :=
    hiff.mp hbtrue
  refine ⟨hnd.set hdnot, ?_⟩
  rw [toFinset_set_eq hj' hnd]
  exact connected_insert hconnR hw_mem hadj

/-- Witness for C2: initial row, mover 0, destination directly above the
unit at (-0.245, 0). -/
theorem C2_witness :
    (init_pos.length = 10 ∧ (∀ p ∈ init_pos, aligned p ∧ inPlay p) ∧
      init_pos.Nodup ∧ ConnectedCells 70 init_pos.toFinset ∧ 0 < 10 ∧
      prepare_matrix init_pos 0 = some true ∧
      ((-245 : Int), (70 : Int)) ∈ allowed_pos init_pos 0) ∧
    ((init_pos.set 0 ((-245 : Int), (70 : Int))).Nodup ∧
      ConnectedCells 70 (init_pos.set 0 ((-245 : Int), (70 : Int))).toFinset) := by
  have hconn : ConnectedCells 70 init_pos.toFinset :=
    connected_of_flood (d := 70) ((-315 : Int), (0 : Int))
      [(-245, 0), (-175, 0), (-105, 0), (-35, 0),
        (35, 0), (105, 0), (175, 0), (245, 0), (315, 0)] (by decide)
  exact ⟨⟨rfl, by decide, by decide, hconn, by decide, by decide, by decide⟩,
    C2_move_preserves_invariant init_pos rfl (by decide) (by decide) hconn 0
      (by decide) (by decide) _ (by decide)⟩

/-! ## Snap resolution on an empty candidate set -/

/-- C8 counterexample: a configuration with a single unit has no stationary
units, so the allowed set at release is empty, and the release path fails
(none models the exception of the nearest-neighbour lookup over no
candidates) rather than resolving to a no-op that keeps the unit at its
pre-drag cell (which would be some of the unchanged configuration). -/
theorem C8_counterexample :
    allowed_pos [((0 : Int), (0 : Int))] 0 = [] ∧
      release_step [((0 : Int), (0 : Int))] 0 ((0 : Int), (0 : Int)) = none := by
  constructor <;> rfl

/-- C8 amended: whenever the allowed-destination set is empty at drag
release, snap resolution is undefined (building/querying the KDTree of an
empty candidate list fails, modelled none) and the release path produces no
updated configuration; no revert-to-pre-drag no-op is implemented. -/
theorem C8_empty_allowed_fails (pos : List Cell) (t : Nat) (raw : Cell)
    (h : allowed_pos pos t = []) : release_step pos t raw = none := by
  unfold release_step
  rw [h]
  rfl

/-- Witness for C8 (amended): a lone unit at (0.035, 0). -/
theorem C8_witness :
    allowed_pos [((35 : Int), (0 : Int))] 0 = [] ∧
      release_step [((35 : Int), (0 : Int))] 0 ((70 : Int), (0 : Int)) = none :=
  ⟨by decide, C8_empty_allowed_fails [((35 : Int), (0 : Int))] 0
    ((70 : Int), (0 : Int)) (by decide)⟩

/-! ## Centroid normalization -/

theorem foldl_max_add (l : List Int) (a c : Int) :
    (l.map (fun x => x + c)).foldl max (a + c) = l.foldl max a + c := by
  induction l generalizing a with
  | nil => rfl
  | cons b l ih =>
    rw [List.map_cons, List.foldl_cons, List.foldl_cons, max_add_add_right]
    exact ih (max a b)

theorem foldl_min_add (l : List Int) (a c : Int) :
    (l.map (fun x => x + c)).foldl min (a + c) = l.foldl min a + c := by
  induction l generalizing a with
  | nil => rfl
  | cons b l ih =>
    rw [List.map_cons, List.foldl_cons, List.foldl_cons, min_add_add_right]
    exact ih (min a b)

theorem argAux_map {α γ : Type} [LinearOrder γ] (h : α → α) (f g : α → γ)
    (hfg : ∀ x : α, g (h x) = f x) (acc : Option α) (a : α) :
    List.argAux (fun b c => g b < g c) (acc.map h) (h a) =
      (List.argAux (fun b c => f b < f c) acc a).map h := by
  cases acc with
  | none => rfl
  | some c =>
    show (if g (h a) < g (h c) then some (h a) else some (h c)) =
      Option.map h (if f a < f c then some a else some c)
    rw [hfg, hfg]
    by_cases hlt : f a < f c
    · rw [if_pos hlt, if_pos hlt]
      rfl
    · rw [if_neg hlt, if_neg hlt]
      rfl

theorem argmin_map_shift {α γ : Type} [LinearOrder γ] (h : α → α) (f g : α → γ)
    (hfg : ∀ x : α, g (h x) = f x) (l : List α) :
    (l.map h).argmin g = (l.argmin f).map h := by
  have haux : ∀ (l2 : List α) (acc : Option α),
      (l2.map h).foldl (List.argAux fun b c => g b < g c) (acc.map h) =
        (l2.foldl (List.argAux fun b c => f b < f c) acc).map h := by
    intro l2
    induction l2 with
    | nil => intro acc; rfl
    | cons a l2 ih =>
      intro acc
      rw [List.map_cons, List.foldl_cons, List.foldl_cons,
        argAux_map h f g hfg acc a, ih]
  have h2 := haux l none
  exact h2

theorem reset_positions_cons (f : Cell) (fs : List Cell) :
    reset_positions (f :: fs) =
      match closest_node (figure_centroid f fs) (f :: fs) with
      | none => none
      | some c =>
        some (((f :: fs).map (fun p => (p.1 - c.1, p.2 - c.2))).mergeSort lexLe) :=
  rfl

theorem figure_centroid_shift (f0 : Cell) (fs : List Cell) (v : Cell) :
    figure_centroid (f0.1 + v.1, f0.2 + v.2)
      (fs.map (fun p => (p.1 + v.1, p.2 + v.2))) =
      ((figure_centroid f0 fs).1 + (v.1 : ℚ),
        (figure_centroid f0 fs).2 + (v.2 : ℚ)) := by
  unfold figure_centroid
  have hm1 : (fs.map (fun p : Cell => (p.1 + v.1, p.2 + v.2))).map
      (fun p : Cell => p.1) =
      (fs.map (fun p : Cell => p.1)).map (fun x => x + v.1) := by
    rw [List.map_map, List.map_map]
    rfl
  have hm2 : (fs.map (fun p : Cell => (p.1 + v.1, p.2 + v.2))).map
      (fun p : Cell => p.2) =
      (fs.map (fun p : Cell => p.2)).map (fun x => x + v.2) := by
    rw [List.map_map, List.map_map]
    rfl
  dsimp only
  rw [hm1, hm2, foldl_max_add, foldl_min_add, foldl_max_add, foldl_min_add,
    Prod.mk.injEq]
  constructor
  · push_cast
    ring
  · push_cast
    ring

/-- C9: centroid normalization is translation-invariant: for every
non-empty figure and every translation vector v, normalizing the figure
translated by v yields the same output as normalizing the original
figure. -/
theorem C9_reset_positions_translation_invariant
    (f0 : Cell) (fs : List Cell) (v : Cell) :
    reset_positions ((f0 :: fs).map (fun p => (p.1 + v.1, p.2 + v.2))) =
      reset_positions (f0 :: fs) := by
  rw [List.map_cons, reset_positions_cons, reset_positions_cons]
  have hclosest : closest_node
      (figure_centroid (f0.1 + v.1, f0.2 + v.2)
        (fs.map (fun p => (p.1 + v.1, p.2 + v.2))))
      ((f0.1 + v.1, f0.2 + v.2) :: fs.map (fun p => (p.1 + v.1, p.2 + v.2))) =
      (closest_node (figure_centroid f0 fs) (f0 :: fs)).map
        (fun p => (p.1 + v.1, p.2 + v.2)) := by
    rw [figure_centroid_shift]
    rw [show ((f0.1 + v.1, f0.2 + v.2) ::
        fs.map (fun p : Cell => (p.1 + v.1, p.2 + v.2))) =
        (f0 :: fs).map (fun p : Cell => (p.1 + v.1, p.2 + v.2)) from
      by rw [List.map_cons]]
    unfold closest_node
    apply argmin_map_shift
    intro x
    dsimp only
    push_cast
    ring
  rw [hclosest]
  cases hcn : closest_node (figure_centroid f0 fs) (f0 :: fs) with
  | none => rfl
  | some c =>
    show some ((((f0.1 + v.1, f0.2 + v.2) ::
        fs.map (fun p : Cell => (p.1 + v.1, p.2 + v.2))).map
        (fun p => (p.1 - (c.1 + v.1), p.2 - (c.2 + v.2)))).mergeSort lexLe) =
      some (((f0 :: fs).map (fun p => (p.1 - c.1, p.2 - c.2))).mergeSort lexLe)
    congr 1
    rw [show ((f0.1 + v.1, f0.2 + v.2) ::
        fs.map (fun p : Cell => (p.1 + v.1, p.2 + v.2))) =
        (f0 :: fs).map (fun p : Cell => (p.1 + v.1, p.2 + v.2)) from
      by rw [List.map_cons]]
    rw [List.map_map]
    have hfun : ((fun p : Cell => (p.1 - (c.1 + v.1), p.2 - (c.2 + v.2))) ∘
        (fun p : Cell => (p.1 + v.1, p.2 + v.2))) =
        (fun p : Cell => (p.1 - c.1, p.2 - c.2)) := by
      funext p
      dsimp only [Function.comp_apply]
      rw [Prod.mk.injEq]
      constructor <;> ring
    rw [hfun]

theorem foldl_argAux_isSome {α γ : Type} [LinearOrder γ] (f : α → γ) :
    ∀ (l : List α) (x : α),
      ∃ m, l.foldl (List.argAux fun b c => f b < f c) (some x) = some m := by
  intro l
  induction l with
  | nil => intro x; exact ⟨x, rfl⟩
  | cons a l ih =>
    intro x
    rw [List.foldl_cons]
    have h1 : List.argAux (fun b c => f b < f c) (some x) a =
        if f a < f x then some a else some x := rfl
    rw [h1]
    by_cases hlt : f a < f x
    · rw [if_pos hlt]
      exact ih a
    · rw [if_neg hlt]
      exact ih x

theorem closest_node_isSome (node : ℚ × ℚ) (f : Cell) (fs : List Cell) :
    ∃ c, closest_node node (f :: fs) = some c := by
  unfold closest_node List.argmin
  rw [List.foldl_cons]
  exact foldl_argAux_isSome _ fs f

/-- C10: centroid normalization never raises: its failure branch is caught
and turned into the np.nan sentinel (none), which happens exactly on the
empty figure where the centroid has no points, and every non-empty figure
yields a normalized cell list; hence a gallery record's normalized-figure
field is either NaN or a list. -/
theorem C10_reset_positions_total :
    (save_to_gallery []).gallery_normalized = none ∧
      ∀ (f : Cell) (fs : List Cell),
        ∃ l, (save_to_gallery (f :: fs)).gallery_normalized = some l := by
  constructor
  · rfl
  · intro f fs
    show ∃ l, reset_positions (f :: fs) = some l
    rw [reset_positions_cons]
    obtain ⟨c, hc⟩ := closest_node_isSome (figure_centroid f fs) f fs
    rw [hc]
    exact ⟨_, rfl⟩
